import Mathlib

/-!
# Verification of the pure-frame core (src/pure-frame.js)

Shallow embedding of the reactive dataflow engine and interceptor-based
dispatch pipeline of `src/pure-frame.js`, together with proofs settling the
frozen behavioural claims about it.

Modelling conventions:

* Immutable.js values (the only values the engine stores) are modelled by the
  inductive type `Value`; `fromJS` on data already in this universe is the
  identity, and Immutable's deep value equality `is` is structural equality
  of `Value` (decidable).  Sequences and maps are encoded with explicit
  nil/cons constructors (`lnil`/`lcons`, `mnil`/`mcons`) so that equality is
  derivable; data produced by `fromJS` always has well-formed tails, and the
  helpers below treat an ill-formed tail as the end of the collection.
* The module-level mutable registries (`snapshots`, `formulas`,
  `dependencies.upstreams`, `dependencies.downstreams`, `performers`) become
  the fields of an explicit state record `DB`, threaded through every
  operation.  JavaScript objects used as string-keyed dictionaries become
  association lists.
* Formula functions and effect performers are arbitrary Lean functions
  `List Value → Value`, mirroring the arbitrary JS functions the source
  stores.  A performer's return value is discarded exactly as the call site
  `performers[effect](...params)` discards it.
* The unbounded recursion of `compute`/`computeIfAbsent`/`reset` (which in JS
  diverges on cyclic graphs) is modelled with an explicit fuel parameter;
  `none` means the JS run does not terminate normally (stack exhaustion or a
  thrown exception).
* Runs are instrumented with an event trace (`Ev`): a formula-function
  invocation, a reducer invocation, a `reset('state', ·)` call from `do-fx`,
  a performer invocation, and the missing-handler warning.  The trace is an
  observation log only; no source behaviour depends on it.
-/

namespace PureFrame

/-- Immutable.js-style structured values: the data universe the engine
caches and compares with `is` (deep value equality).  `lnil`/`lcons` encode
Immutable `List` cells, `mnil`/`mcons` encode Immutable `Map` cells. -/
inductive Value where
  | vnull
  | vbool (b : Bool)
  | vint (n : Int)
  | vstr (s : String)
  | lnil
  | lcons (hd : Value) (tl : Value)
  | mnil
  | mcons (k : String) (v : Value) (tl : Value)
deriving DecidableEq, Repr

namespace Value

/-- Build an encoded Immutable `List` from a Lean list. -/
def listOf : List Value → Value
  | [] => lnil
  | x :: xs => lcons x (listOf xs)

/-- Build an encoded Immutable `Map` from ordered key/value entries. -/
def mapOf : List (String × Value) → Value
  | [] => mnil
  | (k, v) :: xs => mcons k v (mapOf xs)

/-- `isMap(o)`: is this value an Immutable `Map`? -/
def isMapV : Value → Bool
  | mnil => true
  | mcons _ _ _ => true
  | _ => false

/-- `isList(o)`: is this value an Immutable `List`? -/
def isListV : Value → Bool
  | lnil => true
  | lcons _ _ => true
  | _ => false

/-- `map.get(key)`: `none` models `undefined` (missing key or non-map). -/
def getK : Value → String → Option Value
  | mcons k v tl, key => if k = key then some v else getK tl key
  | _, _ => none

/-- `map.set(key, value)`: replace an existing entry in place or append a
new one, preserving entry order as Immutable `Map.set` preserves insertion
order. -/
def setK : Value → String → Value → Value
  | mcons k v tl, key, w =>
      if k = key then mcons k w tl else mcons k v (setK tl key w)
  | _, key, w => mcons key w mnil

/-- Decode a well-formed encoded Immutable `List` into a Lean list; an
ill-formed tail (unreachable for `fromJS` data) is `none`. -/
def items : Value → Option (List Value)
  | lnil => some []
  | lcons h t => (items t).map (h :: ·)
  | _ => none

/-- `getIn(path)`: iterated `get`; any miss yields `undefined` (`none`). -/
def getIn (v : Value) : List String → Option Value
  | [] => some v
  | k :: rest =>
      match getK v k with
      | some w => getIn w rest
      | none => none

/-- `setIn(path, w)`: iterated `set`, creating nested maps for missing
levels as Immutable does. -/
def setIn (v : Value) : List String → Value → Value
  | [], w => w
  | k :: rest, w =>
      setK v k (setIn ((getK v k).getD mnil) rest w)

/-- `a.mergeDeep(b)`: when both sides are maps, merge `b`'s entries into `a`
one by one, merging recursively at shared keys; otherwise the right-hand
side wins.  (List merging is never exercised by the modelled flows.) -/
def mergeDeep : Value → Value → Value
  | a, mcons k bv tl =>
      if a.isMapV then
        mergeDeep
          (match getK a k with
           | some av => setK a k (mergeDeep av bv)
           | none => setK a k bv)
          tl
      else mcons k bv tl
  | a, mnil => if a.isMapV then a else mnil
  | _, b => b

end Value

/-- Association-list lookup, the model of `obj[key]` (`none` = the key is
absent, i.e. `key in obj` is false / the read gives `undefined`). -/
def lookupA {α : Type} : List (String × α) → String → Option α
  | [], _ => none
  | (k, v) :: rest, key => if k = key then some v else lookupA rest key

/-- Association-list write, the model of `obj[key] = v` (replace or append). -/
def setA {α : Type} : List (String × α) → String → α → List (String × α)
  | [], key, v => [(key, v)]
  | (k, w) :: rest, key, v =>
      if k = key then (k, v) :: rest else (k, w) :: setA rest key v

/-- Association-list delete, the model of `delete obj[key]`. -/
def eraseA {α : Type} : List (String × α) → String → List (String × α)
  | [], _ => []
  | (k, w) :: rest, key => if k = key then rest else (k, w) :: eraseA rest key

/-- Remove the first occurrence of an element from a list: the model of
`index = xs.indexOf(y); if (index > -1) xs.splice(index, 1)`. -/
def removeFirst : List String → String → List String
  | [], _ => []
  | x :: rest, y => if x = y then rest else x :: removeFirst rest y

/-- Event trace entries recorded by instrumented runs. -/
inductive Ev where
  | invoke (id : String)
  | reduced (id : String)
  | resetState (v : Value)
  | mark (tag : String)
  | perform (kind : String) (params : List Value)
  | warnMissing (action : Value)
deriving DecidableEq

/-- The formula ids whose computation function was invoked in a trace. -/
def invokedIds (evs : List Ev) : List String :=
  evs.filterMap (fun e => match e with | .invoke j => some j | _ => none)

/-- The engine's module-level mutable state: the `snapshots` value cache,
the `formulas` registry, the two halves of `dependencies`, and the
`performers` registry of `src/pure-frame.js`. -/
structure DB where
  snapshots : List (String × Value)
  formulas : List (String × (List Value → Value))
  upstreams : List (String × List String)
  downstreams : List (String × List String)
  performers : List (String × (List Value → Value))

/-- The engine's initial state: `snapshots` holds the preset global state
`state: fromJS({})` and every registry is empty. -/
def initialDB : DB :=
  { snapshots := [("state", Value.mnil)]
    formulas := []
    upstreams := []
    downstreams := []
    performers := [] }

/-- `defineFormula(id, upstreams, fn)`: record the operator and the upstream
list, and append `id` to each upstream's downstream list (creating the list
when absent). -/
def defineFormula (db : DB) (id : String) (ups : List String)
    (fn : List Value → Value) : DB :=
  { db with
    formulas := setA db.formulas id fn
    upstreams := setA db.upstreams id ups
    downstreams :=
      ups.foldl
        (fun ds u => setA ds u ((lookupA ds u).getD [] ++ [id]))
        db.downstreams }

/-- One step of `deleteFormula`'s loop body: look up the upstream's
downstream list (`undefined` there makes the `.indexOf` call throw a
`TypeError`, modelled as `none`) and splice out the first occurrence of —
exactly as the source has it — `upstream` itself, not the deleted `id`. -/
def deleteDownstreamLinks :
    List (String × List String) → List String → Option (List (String × List String))
  | ds, [] => some ds
  | ds, u :: rest =>
      match lookupA ds u with
      | none => none
      | some l => deleteDownstreamLinks (setA ds u (removeFirst l u)) rest

/-- `deleteFormula(id)`: delete the formula entry, walk the recorded
upstream list unlinking downstream entries, then delete the upstream
registration.  Reading `dependencies.upstreams[id]` when no entry exists
gives `undefined`, and the unconditional `.forEach` on it throws — modelled
as `none`.  (The JS exception aborts after the `delete formulas[id]`
mutation already happened; the model collapses the whole aborted run to
`none`.) -/
def deleteFormula (db : DB) (id : String) : Option DB :=
  match lookupA db.upstreams id with
  | none => none
  | some ups =>
      (deleteDownstreamLinks db.downstreams ups).map (fun ds =>
        { db with
          formulas := eraseA db.formulas id
          upstreams := eraseA db.upstreams id
          downstreams := ds })

/-- The `upstreams.map(computeIfAbsent)` traversal of `compute`,
parameterised by the recursive resolver: resolve a list of ids left to
right, threading the cache. -/
def computeListWith
    (cia : DB → String → Option (Value × DB × List Ev)) :
    DB → List String → Option (List Value × DB × List Ev)
  | db, [] => some ([], db, [])
  | db, id :: rest =>
      match cia db id with
      | none => none
      | some (v, db', evs) =>
          match computeListWith cia db' rest with
          | none => none
          | some (vs, db'', evs') => some (v :: vs, db'', evs ++ evs')

/-- The body of `compute(id)` over a given resolver: resolve every upstream,
then apply the formula function to the resolved values positionally; a
missing formula function yields `null`. -/
def computeWith
    (cia : DB → String → Option (Value × DB × List Ev))
    (db : DB) (id : String) : Option (Value × DB × List Ev) :=
  match computeListWith cia db ((lookupA db.upstreams id).getD []) with
  | none => none
  | some (params, db', evs) =>
      match lookupA db'.formulas id with
      | some f => some (f params, db', evs ++ [Ev.invoke id])
      | none => some (Value.vnull, db', evs)

/-- `computeIfAbsent(id)` (also exported as `deref`): return the cached
value when present; otherwise compute it, cache the result, and return it.
The fuel parameter bounds the `computeIfAbsent`/`compute` recursion depth
(one unit per uncached node entered). -/
def computeIfAbsent : Nat → DB → String → Option (Value × DB × List Ev)
  | 0, db, id =>
      match lookupA db.snapshots id with
      | some v => some (v, db, [])
      | none => none
  | fuel + 1, db, id =>
      match lookupA db.snapshots id with
      | some v => some (v, db, [])
      | none =>
          match computeWith (computeIfAbsent fuel) db id with
          | none => none
          | some (v, db', evs) =>
              some (v, { db' with snapshots := setA db'.snapshots id v }, evs)

/-- `compute(id)`: force-compute the formula of `id`, resolving upstreams
through `computeIfAbsent` at the given fuel level. -/
def compute (fuel : Nat) : DB → String → Option (Value × DB × List Ev) :=
  computeWith (computeIfAbsent fuel)

/-- `upstreams.map(computeIfAbsent)` at the given fuel level. -/
def computeList (fuel : Nat) : DB → List String → Option (List Value × DB × List Ev) :=
  computeListWith (computeIfAbsent fuel)

/-- `deref` / `read(id)`: the public read entry point is `computeIfAbsent`. -/
def deref (fuel : Nat) (db : DB) (id : String) : Option (Value × DB × List Ev) :=
  computeIfAbsent fuel db id

/-- The downstream ids `reset` propagates to: the recorded downstream list
of `id` filtered to those that currently have a registered formula. -/
def registeredDownstreams (db : DB) (id : String) : List String :=
  ((lookupA db.downstreams id).getD []).filter
    (fun d => (lookupA db.formulas d).isSome)

/-- The `filter(...).forEach(downstream => reset(downstream,
compute(downstream)))` loop of `reset`, parameterised by the recursive
propagator and the forcing computation, threading the cache left to
right. -/
def resetListWith
    (rst : DB → String → Value → Option (DB × List Ev))
    (cmp : DB → String → Option (Value × DB × List Ev)) :
    DB → List String → Option (DB × List Ev)
  | db, [] => some (db, [])
  | db, d :: rest =>
      match cmp db d with
      | none => none
      | some (v, dbA, evsA) =>
          match rst dbA d v with
          | none => none
          | some (dbB, evsB) =>
              match resetListWith rst cmp dbB rest with
              | none => none
              | some (dbC, evsC) => some (dbC, evsA ++ evsB ++ evsC)

/-- `reset(id, newValue)`: if `is(origin, newValue)` holds nothing happens;
otherwise overwrite the cache entry and, for every downstream id that still
has a registered formula, force-`compute` it and recursively `reset` it with
the fresh value.  The fuel bounds the propagation depth. -/
def reset : Nat → DB → String → Value → Option (DB × List Ev)
  | 0, _, _, _ => none
  | fuel + 1, db, id, v =>
      if lookupA db.snapshots id = some v then some (db, [])
      else
        let db₁ : DB := { db with snapshots := setA db.snapshots id v }
        resetListWith (reset fuel) (compute fuel) db₁ (registeredDownstreams db₁ id)

/-- The propagation loop of `reset` at a given fuel level. -/
def resetList (fuel : Nat) : DB → List String → Option (DB × List Ev) :=
  resetListWith (reset fuel) (compute fuel)

/-! ## Interceptor chain and dispatcher -/

/-- A chain stage: `context -> context` in the source, with the engine
state, the fuel budget and the observation trace made explicit. -/
def StageFn : Type :=
  Nat → Value → DB → Option (Value × DB × List Ev)

/-- An interceptor: an id plus optional `before` and `after` stages. -/
structure Interceptor where
  id : String
  before : Option StageFn := none
  after : Option StageFn := none

/-- `definePerformer(id, performer)`. -/
def definePerformer (db : DB) (kind : String) (fn : List Value → Value) : DB :=
  { db with performers := setA db.performers kind fn }

/-- The `inject-state` standard stage: copy `deref('state')` into
`context.snapshots.state`. -/
def injectStateBefore : StageFn := fun fuel ctx db =>
  match computeIfAbsent fuel db "state" with
  | none => none
  | some (v, db', evs) =>
      some (Value.setIn ctx ["snapshots", "state"] v, db', evs)

/-- Destructure one `fx` entry `[effectKind, ...params]`.  An entry that is
not a list headed by a string kind would misbehave at the JS destructuring
or property-key coercion; such entries are modelled as an abnormal end
(`none`) and are never produced by the modelled flows. -/
def kindParams (entry : Value) : Option (String × List Value) :=
  match entry with
  | .lcons (.vstr k) t => (Value.items t).map (fun ps => (k, ps))
  | _ => none

/-- The `fx` half of the `do-fx` stage: when `effects.fx` is a list, the
performer invocations it produces — each `[effectKind, ...params]` entry
whose kind has a registered performer, in array order, with its parameters;
entries with unregistered kinds are dropped by the filter.  `none` models
the destructuring `TypeError` on a malformed entry. -/
def fxEvents (ctx : Value) (db : DB) : Option (List Ev) :=
  match Value.getIn ctx ["effects", "fx"] with
  | some fx =>
      if fx.isListV then
        match Value.items fx with
        | none => none
        | some entries =>
            match entries.mapM kindParams with
            | none => none
            | some kps =>
                some ((kps.filter
                         (fun kp => (lookupA db.performers kp.1).isSome)).map
                       (fun kp => Ev.perform kp.1 kp.2))
      else some []
  | none => some []

/-- The `do-fx` standard stage: if `effects.state` is a map, `reset('state',
it)` first; then perform the `fx` invocations (each invocation's return
value is discarded at the call site, recorded here as a `perform` event).
Returns the context unchanged. -/
def doFxAfter : StageFn := fun fuel ctx db =>
  let stPart : Option (DB × List Ev) :=
    match Value.getIn ctx ["effects", "state"] with
    | some s =>
        if s.isMapV then
          (reset fuel db "state" s).map
            (fun (db₁, evs) => (db₁, Ev.resetState s :: evs))
        else some (db, [])
    | none => some (db, [])
  match stPart with
  | none => none
  | some (db₁, evs₁) =>
      match fxEvents ctx db₁ with
      | none => none
      | some evs₂ => some (ctx, db₁, evs₁ ++ evs₂)

/-- The preset `standardInterceptors` list: `inject-state` (before only) and
`do-fx` (after only). -/
def standardInterceptors : List Interceptor :=
  [{ id := "inject-state", before := some injectStateBefore },
   { id := "do-fx", after := some doFxAfter }]

/-- The stage a wrapped reducer runs as: invoke the reducer with
`(snapshots, action)` and deep-merge `{effects}` into the context. -/
def reducerStage (id : String) (fn : Value → Value → Value) : StageFn :=
  fun _ ctx db =>
    let snaps := (Value.getK ctx "snapshots").getD Value.vnull
    let action := (Value.getK ctx "action").getD Value.vnull
    let effects := fn snaps action
    some (Value.mergeDeep ctx (Value.mapOf [("effects", effects)]), db,
          [Ev.reduced id])

/-- `wrapReducerToInterceptor(id, fn)`: the reducer as a terminal
before-stage. -/
def wrapReducerToInterceptor (id : String) (fn : Value → Value → Value) :
    Interceptor :=
  { id := id
    before := some (reducerStage id fn) }

/-- The reducer registry `reducers` (action id → stored executable chain). -/
def Registry : Type := List (String × List StageFn)

/-- The executable chain `defineReducer` stores: all `before` functions of
`standardInterceptors ++ interceptors ++ [wrapped reducer]` in forward
order, followed by all `after` functions in reverse order. -/
def reducerChain (id : String) (icpts : List Interceptor)
    (fn : Value → Value → Value) : List StageFn :=
  let chain := standardInterceptors ++ icpts ++ [wrapReducerToInterceptor id fn]
  chain.filterMap (fun i => i.before) ++
    chain.reverse.filterMap (fun i => i.after)

/-- `defineReducer(id, interceptors, reducer)`: build the chain once and
store it under the action id.  (The two-argument call form of the source
normalises to `interceptors = []` before reaching this point.) -/
def defineReducer (reg : Registry) (id : String) (icpts : List Interceptor)
    (fn : Value → Value → Value) : Registry :=
  setA reg id (reducerChain id icpts fn)

/-- `chain.reduce((context, reducer) => reducer(context), context)`: thread
the context left to right through the stored stages. -/
def runChain (fuel : Nat) : List StageFn → Value → DB → Option (Value × DB × List Ev)
  | [], ctx, db => some (ctx, db, [])
  | s :: rest, ctx, db =>
      match s fuel ctx db with
      | none => none
      | some (ctx', db', evs) =>
          match runChain fuel rest ctx' db' with
          | none => none
          | some (ctx'', db'', evs') => some (ctx'', db'', evs ++ evs')

/-- The action's leading id (`isList(action)? action.get(0): action[0]`);
a leading element that is not a string is never a registered reducer key. -/
def leadingId : Value → Option String
  | .lcons (.vstr s) _ => some s
  | _ => none

/-- The fresh per-dispatch context
`fromJS({ snapshots: {}, effects: {}, action })`. -/
def initialContext (action : Value) : Value :=
  Value.mapOf [("snapshots", Value.mnil), ("effects", Value.mnil),
               ("action", action)]

/-- `dispatchSync(action)`: look up the chain for the action's leading id;
when none is registered, warn and return without touching the engine
(`false` flag); otherwise run the chain over a fresh context, discard the
final context, and return the threaded engine state (`true` flag). -/
def dispatchSync (fuel : Nat) (reg : Registry) (db : DB) (action : Value) :
    Option (DB × List Ev × Bool) :=
  match leadingId action with
  | some id =>
      match lookupA reg id with
      | none => some (db, [Ev.warnMissing action], false)
      | some chain =>
          match runChain fuel chain (initialContext action) db with
          | none => none
          | some (_, db', evs) => some (db', evs, true)
  | none => some (db, [Ev.warnMissing action], false)

/-! ## Scheduling model

`dispatchLater(action, ms)` is `setTimeout(() => dispatchSync(action), ms)`:
it only hands the action to the host timer queue; the chain runs when the
timer fires, after the current synchronous execution finishes.  `World`
makes that queue explicit: `dispatchLaterW` merely enqueues, and a separate
`fireTimer` step performs the queued synchronous dispatch. -/

structure World where
  reg : Registry
  db : DB
  timers : List (Nat × Value)

/-- `dispatchLater(action, ms)`: enqueue; nothing else happens now. -/
def dispatchLaterW (w : World) (action : Value) (ms : Nat) : World :=
  { w with timers := w.timers ++ [(ms, action)] }

/-- `dispatch(action)`: `dispatchLater(action, 0)`. -/
def dispatchW (w : World) (action : Value) : World :=
  dispatchLaterW w action 0

/-- Fire the first queued timer: run its `dispatchSync` against the current
engine state. -/
def fireTimer (fuel : Nat) (w : World) : Option (World × List Ev) :=
  match w.timers with
  | [] => some (w, [])
  | (_, action) :: rest =>
      (dispatchSync fuel w.reg w.db action).map
        (fun r => ({ w with db := r.1, timers := rest }, r.2.1))

/-! ## Reachability in the dependency graph -/

/-- Reachability along upstream edges: `Reach ups a b` means `b` is `a`
itself or is reachable from `a` by repeatedly stepping into declared
upstream lists. -/
inductive Reach (ups : List (String × List String)) : String → String → Prop where
  | refl (a : String) : Reach ups a a
  | step {a b c : String} (hb : b ∈ (lookupA ups a).getD [])
      (h : Reach ups b c) : Reach ups a c

/-- Reachability along downstream edges. -/
inductive ReachD (downs : List (String × List String)) : String → String → Prop where
  | refl (a : String) : ReachD downs a a
  | step {a b c : String} (hb : b ∈ (lookupA downs a).getD [])
      (h : ReachD downs b c) : ReachD downs a c

/-- An id reachable from `a` is `a` itself or reachable from one of `a`'s
direct upstreams. -/
theorem Reach.cases_head {ups : List (String × List String)} {a c : String}
    (h : Reach ups a c) :
    a = c ∨ ∃ b ∈ (lookupA ups a).getD [], Reach ups b c := by
  cases h with
  | refl => exact Or.inl rfl
  | step hb h => exact Or.inr ⟨_, hb, h⟩

/-! ## Association-list and trace lemmas -/

theorem lookupA_setA {α : Type} (l : List (String × α)) (k k' : String) (v : α) :
    lookupA (setA l k v) k' = if k = k' then some v else lookupA l k' := by
  induction l with
  | nil =>
      simp only [setA, lookupA]
  | cons hd tl ih =>
      obtain ⟨a, b⟩ := hd
      by_cases hak : a = k
      · subst hak
        simp only [setA, if_pos rfl, lookupA]
        by_cases hak' : a = k'
        · simp [hak']
        · simp [hak']
      · simp only [setA, if_neg hak, lookupA]
        by_cases hak' : a = k'
        · have hkk' : ¬ (k = k') := fun he => hak (he ▸ hak')
          simp [hak', hkk']
        · simp [hak', ih]

theorem lookupA_setA_self {α : Type} (l : List (String × α)) (k : String) (v : α) :
    lookupA (setA l k v) k = some v := by
  simp [lookupA_setA]

theorem lookupA_setA_ne {α : Type} (l : List (String × α)) {k k' : String} (v : α)
    (h : k ≠ k') : lookupA (setA l k v) k' = lookupA l k' := by
  simp [lookupA_setA, h]

theorem invokedIds_append (a b : List Ev) :
    invokedIds (a ++ b) = invokedIds a ++ invokedIds b := by
  simp [invokedIds]

theorem mem_invokedIds {j : String} {evs : List Ev} :
    j ∈ invokedIds evs ↔ Ev.invoke j ∈ evs := by
  simp only [invokedIds, List.mem_filterMap]
  constructor
  · rintro ⟨e, he, hej⟩
    cases e <;> simp_all
  · intro he
    exact ⟨Ev.invoke j, he, rfl⟩

/-! ## Invariant bundles for the evaluator -/

/-- Existing cache entries survive (an operation only adds or keeps
entries). -/
def snapshotsExtend (db db' : DB) : Prop :=
  ∀ k w, lookupA db.snapshots k = some w → lookupA db'.snapshots k = some w

/-- The operation left the registries and the dependency graph alone. -/
def graphEq (db db' : DB) : Prop :=
  db'.formulas = db.formulas ∧ db'.upstreams = db.upstreams ∧
  db'.downstreams = db.downstreams ∧ db'.performers = db.performers

theorem snapshotsExtend_refl (db : DB) : snapshotsExtend db db :=
  fun _ _ h => h

theorem snapshotsExtend_trans {db₁ db₂ db₃ : DB}
    (h1 : snapshotsExtend db₁ db₂) (h2 : snapshotsExtend db₂ db₃) :
    snapshotsExtend db₁ db₃ :=
  fun k w h => h2 k w (h1 k w h)

theorem graphEq_refl (db : DB) : graphEq db db :=
  ⟨rfl, rfl, rfl, rfl⟩

theorem graphEq_trans {db₁ db₂ db₃ : DB}
    (h1 : graphEq db₁ db₂) (h2 : graphEq db₂ db₃) : graphEq db₁ db₃ :=
  ⟨h2.1.trans h1.1, h2.2.1.trans h1.2.1, h2.2.2.1.trans h1.2.2.1,
   h2.2.2.2.trans h1.2.2.2⟩

/-- The behaviour bundle a cache-respecting resolver satisfies: existing
entries survive, the graph is untouched, the requested id ends up cached
with the returned value, every invoked formula was registered, and every
invoked id is upstream-reachable from the requested one. -/
def CiaOK (cia : DB → String → Option (Value × DB × List Ev)) : Prop :=
  ∀ db id v db' evs, cia db id = some (v, db', evs) →
    snapshotsExtend db db' ∧ graphEq db db' ∧
    lookupA db'.snapshots id = some v ∧
    (∀ j, Ev.invoke j ∈ evs → (lookupA db.formulas j).isSome = true) ∧
    (∀ j, Ev.invoke j ∈ evs → Reach db.upstreams id j)

/-- Invariants of the upstream-resolution traversal, given a well-behaved
resolver: cache extension, untouched graph, invoked formulas registered,
and every invoked id reachable from one of the traversed ids. -/
theorem computeListWith_ok {cia : DB → String → Option (Value × DB × List Ev)}
    (hcia : CiaOK cia) :
    ∀ (ids : List String) (db : DB) (vs : List Value) (db' : DB) (evs : List Ev),
      computeListWith cia db ids = some (vs, db', evs) →
      snapshotsExtend db db' ∧ graphEq db db' ∧
      (∀ j, Ev.invoke j ∈ evs → (lookupA db.formulas j).isSome = true) ∧
      (∀ j, Ev.invoke j ∈ evs → ∃ u ∈ ids, Reach db.upstreams u j) := by
  intro ids
  induction ids with
  | nil =>
      intro db vs db' evs h
      simp only [computeListWith, Option.some.injEq, Prod.mk.injEq] at h
      obtain ⟨-, hdb, hevs⟩ := h
      subst hdb; subst hevs
      exact ⟨snapshotsExtend_refl db, graphEq_refl db, by simp, by simp⟩
  | cons id rest ih =>
      intro db vs db' evs h
      simp only [computeListWith] at h
      split at h
      · exact absurd h (by simp)
      rename_i v₁ db₁ evs₁ hc
      split at h
      · exact absurd h (by simp)
      rename_i vs₂ db₂ evs₂ hr
      obtain ⟨he₁, hg₁, -, hf₁, hreach₁⟩ := hcia db id v₁ db₁ evs₁ hc
      obtain ⟨he₂, hg₂, hf₂, hreach₂⟩ := ih db₁ vs₂ db₂ evs₂ hr
      simp only [Option.some.injEq, Prod.mk.injEq] at h
      obtain ⟨-, hdb, hevs⟩ := h
      subst hdb; subst hevs
      refine ⟨snapshotsExtend_trans he₁ he₂, graphEq_trans hg₁ hg₂, ?_, ?_⟩
      · intro j hj
        rcases List.mem_append.mp hj with hj | hj
        · exact hf₁ j hj
        · have := hf₂ j hj
          rwa [hg₁.1] at this
      · intro j hj
        rcases List.mem_append.mp hj with hj | hj
        · exact ⟨id, by simp, hreach₁ j hj⟩
        · obtain ⟨u, hu, hru⟩ := hreach₂ j hj
          rw [hg₁.2.1] at hru
          exact ⟨u, by simp [hu], hru⟩

/-- Invariants of one forced `compute` over a well-behaved resolver. -/
theorem computeWith_ok {cia : DB → String → Option (Value × DB × List Ev)}
    (hcia : CiaOK cia) :
    ∀ (db : DB) (id : String) (v : Value) (db' : DB) (evs : List Ev),
      computeWith cia db id = some (v, db', evs) →
      snapshotsExtend db db' ∧ graphEq db db' ∧
      (∀ j, Ev.invoke j ∈ evs → (lookupA db.formulas j).isSome = true) ∧
      (∀ j, Ev.invoke j ∈ evs → Reach db.upstreams id j) ∧
      ((lookupA db.formulas id).isSome = true → Ev.invoke id ∈ evs) := by
  intro db id v db' evs h
  simp only [computeWith] at h
  split at h
  · exact absurd h (by simp)
  rename_i params db₁ evs₁ hl
  obtain ⟨he₁, hg₁, hf₁, hreach₁⟩ :=
    computeListWith_ok hcia _ db params db₁ evs₁ hl
  have hreach' : ∀ j, Ev.invoke j ∈ evs₁ → Reach db.upstreams id j := by
    intro j hj
    obtain ⟨u, hu, hru⟩ := hreach₁ j hj
    exact Reach.step hu hru
  split at h <;> rename_i hfm <;>
    simp only [Option.some.injEq, Prod.mk.injEq] at h <;>
    obtain ⟨-, hdb, hevs⟩ := h <;> subst hdb <;> subst hevs
  · refine ⟨he₁, hg₁, ?_, ?_, ?_⟩
    · intro j hj
      rcases List.mem_append.mp hj with hj | hj
      · exact hf₁ j hj
      · simp only [List.mem_singleton] at hj
        cases hj
        rw [← hg₁.1]
        simp [hfm]
    · intro j hj
      rcases List.mem_append.mp hj with hj | hj
      · exact hreach' j hj
      · simp only [List.mem_singleton] at hj
        cases hj
        exact Reach.refl id
    · intro _
      simp
  · have hnone : lookupA db.formulas id = none := by rw [← hg₁.1]; exact hfm
    exact ⟨he₁, hg₁, hf₁, hreach', by simp [hnone]⟩

/-- `computeIfAbsent` satisfies the resolver bundle at every fuel level. -/
theorem ciaOK : ∀ fuel : Nat, CiaOK (computeIfAbsent fuel) := by
  intro fuel
  induction fuel with
  | zero =>
      intro db id v db' evs h
      simp only [computeIfAbsent] at h
      split at h
      · rename_i w hs
        simp only [Option.some.injEq, Prod.mk.injEq] at h
        obtain ⟨hv, hdb, hevs⟩ := h
        subst hv; subst hdb; subst hevs
        exact ⟨snapshotsExtend_refl db, graphEq_refl db, hs, by simp, by simp⟩
      · exact absurd h (by simp)
  | succ n ih =>
      intro db id v db' evs h
      simp only [computeIfAbsent] at h
      split at h
      · rename_i w hs
        simp only [Option.some.injEq, Prod.mk.injEq] at h
        obtain ⟨hv, hdb, hevs⟩ := h
        subst hv; subst hdb; subst hevs
        exact ⟨snapshotsExtend_refl db, graphEq_refl db, hs, by simp, by simp⟩
      · rename_i hs
        split at h
        · exact absurd h (by simp)
        rename_i v₁ db₁ evs₁ hc
        obtain ⟨he₁, hg₁, hf₁, hreach₁, -⟩ := computeWith_ok ih db id v₁ db₁ evs₁ hc
        simp only [Option.some.injEq, Prod.mk.injEq] at h
        obtain ⟨hv, hdb, hevs⟩ := h
        subst hv; subst hdb; subst hevs
        refine ⟨?_, ?_, ?_, hf₁, hreach₁⟩
        · intro k w hk
          have hk₁ := he₁ k w hk
          have hne : id ≠ k := by
            intro he
            rw [← he] at hk
            rw [hs] at hk
            exact Option.noConfusion hk
          simpa [lookupA_setA_ne _ _ hne] using hk₁
        · exact ⟨hg₁.1, hg₁.2.1, hg₁.2.2.1, hg₁.2.2.2⟩
        · simp [lookupA_setA_self]

/-- A cached id reads back immediately: no computation, no change, no
invocation. -/
theorem computeIfAbsent_cached {fuel : Nat} {db : DB} {id : String} {w : Value}
    (h : lookupA db.snapshots id = some w) :
    computeIfAbsent fuel db id = some (w, db, []) := by
  cases fuel <;> simp only [computeIfAbsent] <;> rw [h]

/-- The behaviour bundle of a forcing computation as used by `reset`:
existing cache entries survive, the graph is untouched, invoked formulas
are registered, and a registered requested id is actually invoked. -/
def CmpOK (cmp : DB → String → Option (Value × DB × List Ev)) : Prop :=
  ∀ db id v db' evs, cmp db id = some (v, db', evs) →
    snapshotsExtend db db' ∧ graphEq db db' ∧
    (∀ j, Ev.invoke j ∈ evs → (lookupA db.formulas j).isSome = true) ∧
    ((lookupA db.formulas id).isSome = true → Ev.invoke id ∈ evs)

theorem cmpOK : ∀ fuel : Nat, CmpOK (compute fuel) := by
  intro fuel db id v db' evs h
  simp only [compute] at h
  obtain ⟨he, hg, hf, -, hself⟩ := computeWith_ok (ciaOK fuel) db id v db' evs h
  exact ⟨he, hg, hf, hself⟩

/-- The behaviour bundle of `reset`: graph untouched; an existing cache
entry either survives or belongs to an id downstream-reachable from the
reset root; every invoked formula was registered. -/
def RstOK (rst : DB → String → Value → Option (DB × List Ev)) : Prop :=
  ∀ db id v db' evs, rst db id v = some (db', evs) →
    graphEq db db' ∧
    (∀ k w, lookupA db.snapshots k = some w →
      lookupA db'.snapshots k = some w ∨ ReachD db.downstreams id k) ∧
    (∀ j, Ev.invoke j ∈ evs → (lookupA db.formulas j).isSome = true)

/-- Invariants of the propagation loop, given well-behaved recursive
propagator and forcing computation; additionally, every traversed id with a
registered formula is invoked. -/
theorem resetListWith_ok {rst : DB → String → Value → Option (DB × List Ev)}
    {cmp : DB → String → Option (Value × DB × List Ev)}
    (hrst : RstOK rst) (hcmp : CmpOK cmp) :
    ∀ (ds : List String) (db db' : DB) (evs : List Ev),
      resetListWith rst cmp db ds = some (db', evs) →
      graphEq db db' ∧
      (∀ k w, lookupA db.snapshots k = some w →
        lookupA db'.snapshots k = some w ∨
          ∃ d ∈ ds, ReachD db.downstreams d k) ∧
      (∀ j, Ev.invoke j ∈ evs → (lookupA db.formulas j).isSome = true) ∧
      (∀ d ∈ ds, (lookupA db.formulas d).isSome = true → Ev.invoke d ∈ evs) := by
  intro ds
  induction ds with
  | nil =>
      intro db db' evs h
      simp only [resetListWith, Option.some.injEq, Prod.mk.injEq] at h
      obtain ⟨hdb, hevs⟩ := h
      subst hdb; subst hevs
      exact ⟨graphEq_refl db, fun k w hk => Or.inl hk, by simp, by simp⟩
  | cons d rest ih =>
      intro db db' evs h
      simp only [resetListWith] at h
      split at h
      · exact absurd h (by simp)
      rename_i vd dbA evsA hcmpEq
      split at h
      · exact absurd h (by simp)
      rename_i dbB evsB hrstEq
      split at h
      · exact absurd h (by simp)
      rename_i dbC evsC hrestEq
      obtain ⟨heA, hgA, hfA, hselfA⟩ := hcmp db d vd dbA evsA hcmpEq
      obtain ⟨hgB, hpB, hfB⟩ := hrst dbA d vd dbB evsB hrstEq
      obtain ⟨hgC, hpC, hfC, hinvC⟩ := ih dbB dbC evsC hrestEq
      simp only [Option.some.injEq, Prod.mk.injEq] at h
      obtain ⟨hdb, hevs⟩ := h
      subst hdb; subst hevs
      have hfAeq : dbA.formulas = db.formulas := hgA.1
      have hfBeq : dbB.formulas = db.formulas := hgB.1.trans hfAeq
      have hdAeq : dbA.downstreams = db.downstreams := hgA.2.2.1
      have hdBeq : dbB.downstreams = db.downstreams := hgB.2.2.1.trans hdAeq
      refine ⟨graphEq_trans hgA (graphEq_trans hgB hgC), ?_, ?_, ?_⟩
      · intro k w hk
        have hkA := heA k w hk
        rcases hpB k w hkA with hkB | hr
        · rcases hpC k w hkB with hkC | ⟨d', hd', hr⟩
          · exact Or.inl hkC
          · rw [hdBeq] at hr
            exact Or.inr ⟨d', by simp [hd'], hr⟩
        · rw [hdAeq] at hr
          exact Or.inr ⟨d, by simp, hr⟩
      · intro j hj
        rcases List.mem_append.mp hj with hj | hj
        · rcases List.mem_append.mp hj with hj | hj
          · exact hfA j hj
          · have := hfB j hj
            rwa [hfAeq] at this
        · have := hfC j hj
          rwa [hfBeq] at this
      · intro d₀ hd₀ hreg
        rcases hd₀ with _ | hd₀
        · exact List.mem_append.mpr (Or.inl (List.mem_append.mpr (Or.inl (hselfA hreg))))
        · rename_i hd₀'
          have hreg' : (lookupA dbB.formulas d₀).isSome = true := by
            rwa [hfBeq]
          exact List.mem_append.mpr (Or.inr (hinvC d₀ hd₀' hreg'))

/-- `reset` satisfies its bundle at every fuel level. -/
theorem resetOK : ∀ fuel : Nat, RstOK (reset fuel) := by
  intro fuel
  induction fuel with
  | zero =>
      intro db id v db' evs h
      exact absurd h (by simp [reset])
  | succ n ih =>
      intro db id v db' evs h
      simp only [reset] at h
      split at h
      · rename_i heq
        simp only [Option.some.injEq, Prod.mk.injEq] at h
        obtain ⟨hdb, hevs⟩ := h
        subst hdb; subst hevs
        exact ⟨graphEq_refl db, fun k w hk => Or.inl hk, by simp⟩
      · rename_i hne
        obtain ⟨hg, hp, hf, -⟩ := resetListWith_ok ih (cmpOK n) _ _ db' evs h
        refine ⟨hg, ?_, hf⟩
        intro k w hk
        by_cases hkid : k = id
        · subst hkid
          exact Or.inr (ReachD.refl k)
        · have hk₁ : lookupA (setA db.snapshots id v) k = some w := by
            rw [lookupA_setA_ne _ _ (fun he => hkid he.symm)]
            exact hk
          rcases hp k w hk₁ with hkp | ⟨d, hd, hr⟩
          · exact Or.inl hkp
          · have hd' := hd
            simp only [registeredDownstreams, List.mem_filter] at hd'
            exact Or.inr (ReachD.step hd'.1 hr)

/-- Equal new value: `reset` is a no-op with an empty trace. -/
theorem reset_noop {fuel : Nat} {db : DB} {id : String} {v : Value}
    (h : lookupA db.snapshots id = some v) :
    reset (fuel + 1) db id v = some (db, []) := by
  simp [reset, h]

/-- Different new value: `reset` overwrites the entry and hands the
registered downstream list to the propagation loop. -/
theorem reset_differ {fuel : Nat} {db : DB} {id : String} {v : Value}
    (h : ¬ lookupA db.snapshots id = some v) :
    reset (fuel + 1) db id v =
      resetList fuel { db with snapshots := setA db.snapshots id v }
        (registeredDownstreams db id) := by
  simp only [reset, resetList, if_neg h]
  rfl

/-- After a successful `reset(id, v)` whose direct downstreams cannot reach
back to `id`, the cache holds `v` at `id`. -/
theorem reset_sets_self {fuel : Nat} {db : DB} {id : String} {v : Value}
    {db' : DB} {evs : List Ev}
    (h : reset fuel db id v = some (db', evs))
    (hnb : ∀ d ∈ (lookupA db.downstreams id).getD [],
      ¬ ReachD db.downstreams d id) :
    lookupA db'.snapshots id = some v := by
  cases fuel with
  | zero => exact absurd h (by simp [reset])
  | succ n =>
      simp only [reset] at h
      split at h
      · rename_i heq
        simp only [Option.some.injEq, Prod.mk.injEq] at h
        obtain ⟨hdb, -⟩ := h
        subst hdb
        exact heq
      · rename_i hne
        obtain ⟨-, hp, -, -⟩ := resetListWith_ok (resetOK n) (cmpOK n) _ _ db' evs h
        have hself : lookupA (setA db.snapshots id v) id = some v :=
          lookupA_setA_self _ _ _
        rcases hp id v hself with hkp | ⟨d, hd, hr⟩
        · exact hkp
        · have hd' := hd
          simp only [registeredDownstreams, List.mem_filter] at hd'
          exact absurd hr (hnb d hd'.1)

/-- Decompose a successful chain run into its head stage and the rest. -/
theorem runChain_cons {fuel : Nat} {s : StageFn} {rest : List StageFn}
    {ctx : Value} {db : DB} {ctx'' : Value} {db'' : DB} {evs : List Ev}
    (h : runChain fuel (s :: rest) ctx db = some (ctx'', db'', evs)) :
    ∃ c d e₁ e₂, s fuel ctx db = some (c, d, e₁) ∧
      runChain fuel rest c d = some (ctx'', db'', e₂) ∧ evs = e₁ ++ e₂ := by
  simp only [runChain] at h
  split at h
  · exact absurd h (by simp)
  rename_i c d e₁ hs
  split at h
  · exact absurd h (by simp)
  rename_i c₂ d₂ e₂ hrest
  simp only [Option.some.injEq, Prod.mk.injEq] at h
  obtain ⟨hc, hd, hevs⟩ := h
  subst hc; subst hd; subst hevs
  exact ⟨c, d, e₁, e₂, hs, hrest, rfl⟩

/-! ## Claims -/

/-- C10: calling `deleteFormula(id)` for an id that was never registered (no
upstream entry exists for it) throws — the upstream list for `id` is read
unconditionally and `.forEach` on `undefined` is a `TypeError` — rather
than being a no-op. -/
theorem c10_deleteFormula_unregistered_throws (db : DB) (id : String)
    (h : lookupA db.upstreams id = none) : deleteFormula db id = none := by
  simp [deleteFormula, h]

theorem c10_witness :
    lookupA initialDB.upstreams "B" = none ∧ deleteFormula initialDB "B" = none :=
  ⟨rfl, c10_deleteFormula_unregistered_throws initialDB "B" rfl⟩

/-- C3 (code bug): after `defineFormula('B', ['A'], f)` then
`deleteFormula('B')`, the formula function and the upstream registration of
`B` are removed as the claim says, but `B` is NOT removed from `A`'s
downstream list — the loop splices out `downstreams.indexOf(upstream)`
instead of `indexOf(id)`, so the stale link `'B'` survives in
`downstreams['A']`. -/
theorem c3_deleteFormula_leaves_stale_downstream_link :
    (deleteFormula (defineFormula initialDB "B" ["A"] (fun _ => Value.vnull)) "B").map
      (fun db => (lookupA db.downstreams "A", (lookupA db.formulas "B").isSome,
                  lookupA db.upstreams "B"))
      = some (some ["B"], false, none) := by
  decide

/-- C7: dispatching an action whose leading id has no registered reducer
reports the missing-handler warning and returns with the engine state
exactly as it was: no chain stage runs and no other event is produced.
(The reducer registry itself is an input `dispatchSync` never writes.) -/
theorem c7_missing_handler_warns_and_drops (fuel : Nat) (reg : Registry)
    (db : DB) (action : Value) (id : String)
    (h1 : leadingId action = some id) (h2 : lookupA reg id = none) :
    dispatchSync fuel reg db action = some (db, [Ev.warnMissing action], false) := by
  simp [dispatchSync, h1, h2]

theorem c7_witness :
    dispatchSync 5 [] initialDB (Value.listOf [Value.vstr "nope"])
      = some (initialDB, [Ev.warnMissing (Value.listOf [Value.vstr "nope"])], false) :=
  c7_missing_handler_warns_and_drops 5 [] initialDB
    (Value.listOf [Value.vstr "nope"]) "nope" rfl rfl

/-- A stage that only records its tag, used to observe execution order. -/
def c2MarkStage (tag : String) : StageFn :=
  fun _ ctx db => some (ctx, db, [Ev.mark tag])

/-- An interceptor whose before/after stages record the given tags. -/
def c2Interceptor (b a : String) : Interceptor :=
  { id := b, before := some (c2MarkStage b), after := some (c2MarkStage a) }

/-- C2: for `defineReducer(actionId, [I1, I2], reducerFn)` the stored
executable chain is exactly `inject-state.before, I1.before, I2.before,
wrapped reducer, I2.after, I1.after, do-fx.after` — all before functions in
forward declaration order, then all after functions in reverse declaration
order with `do-fx` last — and (replayed left-to-right by `dispatchSync`) a
dispatch executes the stages in exactly that order, as an instrumented
trace shows. -/
theorem c2_chain_order :
    (∀ (aid n1 n2 : String) (f1 f2 g1 g2 : StageFn) (fn : Value → Value → Value),
      reducerChain aid [⟨n1, some f1, some g1⟩, ⟨n2, some f2, some g2⟩] fn =
        [injectStateBefore, f1, f2, reducerStage aid fn, g2, g1, doFxAfter]) ∧
    (dispatchSync 5
        (defineReducer [] "act"
          [c2Interceptor "I1.before" "I1.after", c2Interceptor "I2.before" "I2.after"]
          (fun _ _ => Value.mnil))
        initialDB (Value.listOf [Value.vstr "act"])).map (fun r => r.2)
      = some ([Ev.mark "I1.before", Ev.mark "I2.before", Ev.reduced "act",
               Ev.mark "I2.after", Ev.mark "I1.after"], true) := by
  constructor
  · intro aid n1 n2 f1 f2 g1 g2 fn
    rfl
  · decide

/-- C9: `dispatch(action)` is literally `dispatchLater(action, 0)`;
`dispatchLater` only enqueues the action with the host timer — the engine
state is untouched and no stage runs before the caller resumes — whereas
`dispatchSync` on a registered action runs the chain, invoking the reducer,
before returning. -/
theorem c9_deferred_dispatch :
    (∀ (w : World) (a : Value), dispatchW w a = dispatchLaterW w a 0) ∧
    (∀ (w : World) (a : Value) (ms : Nat),
      dispatchLaterW w a ms = { w with timers := w.timers ++ [(ms, a)] }) ∧
    (∀ (fuel : Nat) (reg : Registry) (aid : String) (fn : Value → Value → Value)
        (db : DB) (action : Value) (db' : DB) (evs : List Ev) (flag : Bool),
      leadingId action = some aid →
      dispatchSync fuel (defineReducer reg aid [] fn) db action
        = some (db', evs, flag) →
      flag = true ∧ Ev.reduced aid ∈ evs) := by
  refine ⟨fun w a => rfl, fun w a ms => rfl, ?_⟩
  intro fuel reg aid fn db action db' evs flag h1 h
  simp only [dispatchSync, h1, defineReducer, lookupA_setA_self] at h
  have hch : reducerChain aid [] fn =
      [injectStateBefore, reducerStage aid fn, doFxAfter] := rfl
  rw [hch] at h
  split at h
  · exact absurd h (by simp)
  rename_i cF dF eF hrun
  simp only [Option.some.injEq, Prod.mk.injEq] at h
  obtain ⟨-, hevs, hflag⟩ := h
  subst hevs
  obtain ⟨c₁, d₁, e₁, e₂, -, hrun₂, hevs⟩ := runChain_cons hrun
  obtain ⟨c₂, d₂, e₃, e₄, hmid, -, hevs₂⟩ := runChain_cons hrun₂
  have he₃ : e₃ = [Ev.reduced aid] := by
    simp only [reducerStage, Option.some.injEq, Prod.mk.injEq] at hmid
    exact hmid.2.2.symm
  subst hevs; subst hevs₂; subst he₃
  exact ⟨hflag.symm, by simp⟩

theorem c9_witness :
    true = true ∧
      Ev.reduced "a" ∈ [Ev.reduced "a"] :=
  c9_deferred_dispatch.2.2 5 [] "a" (fun _ _ => Value.mnil) initialDB
    (Value.listOf [Value.vstr "a"]) initialDB [Ev.reduced "a"] true rfl rfl

/-- A value whose decoding as a list succeeded is a list. -/
theorem items_isList {fxv : Value} {entries : List Value}
    (h : Value.items fxv = some entries) : fxv.isListV = true := by
  cases fxv <;> simp_all [Value.items, Value.isListV]

/-- C5 (amended): in the `do-fx` stage, if `context.effects.state` is
present and map-valued, `reset("state", effects.state)` runs first and the
`fx` invocations follow against the post-reset engine; a present but
non-map `effects.state` (and an absent one) triggers no reset.  If
`context.effects.fx` is present, the entries whose kind has a registered
performer are invoked in array order with their parameters, and entries
with unregistered kinds are silently dropped by the filter. -/
theorem c5_dofx_effects :
    (∀ (fuel : Nat) (ctx : Value) (db : DB) (s : Value),
      Value.getIn ctx ["effects", "state"] = some s → s.isMapV = true →
      doFxAfter fuel ctx db = (reset fuel db "state" s).bind (fun p =>
        (fxEvents ctx p.1).map (fun evs₂ =>
          (ctx, p.1, Ev.resetState s :: p.2 ++ evs₂)))) ∧
    (∀ (fuel : Nat) (ctx : Value) (db : DB),
      Value.getIn ctx ["effects", "state"] = none →
      doFxAfter fuel ctx db =
        (fxEvents ctx db).map (fun evs₂ => (ctx, db, evs₂))) ∧
    (∀ (ctx : Value) (db : DB) (fxv : Value) (entries : List Value)
        (kps : List (String × List Value)),
      Value.getIn ctx ["effects", "fx"] = some fxv →
      Value.items fxv = some entries →
      entries.mapM kindParams = some kps →
      fxEvents ctx db = some ((kps.filter
          (fun kp => (lookupA db.performers kp.1).isSome)).map
          (fun kp => Ev.perform kp.1 kp.2))) ∧
    (∀ (ctx : Value) (db : DB),
      Value.getIn ctx ["effects", "fx"] = none → fxEvents ctx db = some []) := by
  refine ⟨?_, ?_, ?_, ?_⟩
  · intro fuel ctx db s hst hmap
    simp only [doFxAfter, hst, hmap, if_true]
    rcases hr : reset fuel db "state" s with _ | ⟨db₁, evsR⟩
    · simp [hr]
    · rcases hf : fxEvents ctx db₁ with _ | evs₂ <;> simp [hr, hf]
  · intro fuel ctx db hst
    simp only [doFxAfter, hst]
    rcases hf : fxEvents ctx db with _ | evs₂ <;> simp [hf]
  · intro ctx db fxv entries kps hfx hitems hkps
    simp only [fxEvents, hfx, items_isList hitems, if_true, hitems, hkps]
  · intro ctx db hfx
    simp [fxEvents, hfx]

/-- The context of the C5 counterexample: `effects.state` is present but
holds the non-map value `5`. -/
def c5Ctx : Value :=
  Value.mapOf [("snapshots", Value.mnil),
               ("effects", Value.mapOf [("state", Value.vint 5)]),
               ("action", Value.lnil)]

/-- C5 (counterexample to the claim as stated): `context.effects.state` is
present and differs from the cached root state, yet `do-fx` performs no
reset at all — the engine state comes back unchanged and no event fires,
because the stage tests `isMap(state)`, not presence. -/
theorem c5_counterexample :
    Value.getIn c5Ctx ["effects", "state"] = some (Value.vint 5) ∧
    ¬ lookupA initialDB.snapshots "state" = some (Value.vint 5) ∧
    doFxAfter 9 c5Ctx initialDB = some (c5Ctx, initialDB, []) :=
  ⟨by decide, by decide, rfl⟩

/-- The dispatch context of the C5 witness: a map-valued state effect plus
two fx entries, one with a registered performer and one without. -/
def c5WCtx : Value :=
  Value.mapOf [("snapshots", Value.mnil),
    ("effects", Value.mapOf [
       ("state", Value.mapOf [("x", Value.vint 1)]),
       ("fx", Value.listOf
          [Value.listOf [Value.vstr "known", Value.vint 2],
           Value.listOf [Value.vstr "unknown", Value.vint 3]])]),
    ("action", Value.lnil)]

/-- The engine of the C5 witness: only the performer kind `known` is
registered. -/
def c5WDb : DB := definePerformer initialDB "known" (fun _ => Value.vnull)

theorem c5_witness :
    doFxAfter 9 c5WCtx c5WDb
      = (reset 9 c5WDb "state" (Value.mapOf [("x", Value.vint 1)])).bind (fun p =>
          (fxEvents c5WCtx p.1).map (fun evs₂ =>
            (c5WCtx, p.1,
              Ev.resetState (Value.mapOf [("x", Value.vint 1)]) :: p.2 ++ evs₂))) ∧
    fxEvents c5WCtx c5WDb = some [Ev.perform "known" [Value.vint 2]] :=
  ⟨c5_dofx_effects.1 9 c5WCtx c5WDb (Value.mapOf [("x", Value.vint 1)])
      (by decide) (by decide),
   (c5_dofx_effects.2.2.1 c5WCtx c5WDb
      (Value.listOf [Value.listOf [Value.vstr "known", Value.vint 2],
                     Value.listOf [Value.vstr "unknown", Value.vint 3]])
      [Value.listOf [Value.vstr "known", Value.vint 2],
       Value.listOf [Value.vstr "unknown", Value.vint 3]]
      [("known", [Value.vint 2]), ("unknown", [Value.vint 3])]
      (by decide) (by decide) (by decide)).trans (by decide)⟩

/-- The engine of the C4 counterexample: `b`'s formula function is absent
but a cache entry for `b` (from before a deletion) is still present. -/
def c4Db : DB :=
  { initialDB with snapshots := [("state", Value.mnil), ("b", Value.vint 42)] }

/-- C4 (counterexample to the claim as stated): for an id whose formula
function is absent but whose cached value survives, `read` returns the
stale cached value `42`, not a null value. -/
theorem c4_counterexample :
    lookupA c4Db.formulas "b" = none ∧
    (deref 5 c4Db "b").map (fun r => r.1) = some (Value.vint 42) ∧
    Value.vint 42 ≠ Value.vnull :=
  ⟨rfl, by decide, by decide⟩

/-- C4 (amended): for an id whose formula function is absent, `read` never
throws: with no cache entry it computes and caches a null value; with a
cache entry it returns the cached value unchanged.  During `reset`
propagation a downstream id with no registered formula is never
recomputed: no invocation event for it can occur in any successful
propagation. -/
theorem c4_absent_formula_null_and_skip :
    (∀ (fuel : Nat) (db : DB) (id : String) (v : Value) (db' : DB) (evs : List Ev),
      lookupA db.formulas id = none → lookupA db.snapshots id = none →
      deref fuel db id = some (v, db', evs) →
      v = Value.vnull ∧ lookupA db'.snapshots id = some Value.vnull) ∧
    (∀ (fuel : Nat) (db : DB) (id : String) (w : Value),
      lookupA db.snapshots id = some w → deref fuel db id = some (w, db, [])) ∧
    (∀ (fuel : Nat) (db : DB) (id : String) (v : Value) (db' : DB)
        (evs : List Ev) (d : String),
      lookupA db.formulas d = none →
      reset fuel db id v = some (db', evs) →
      Ev.invoke d ∉ evs) := by
  refine ⟨?_, ?_, ?_⟩
  · intro fuel db id v db' evs hfm hsnap h
    cases fuel with
    | zero =>
        simp only [deref, computeIfAbsent] at h
        split at h
        · rename_i w hw
          rw [hsnap] at hw
          exact absurd hw (by simp)
        · exact absurd h (by simp)
    | succ n =>
        simp only [deref, computeIfAbsent] at h
        split at h
        · rename_i w hw
          rw [hsnap] at hw
          exact absurd hw (by simp)
        rename_i hw
        split at h
        · exact absurd h (by simp)
        rename_i v₁ db₁ evs₁ hc
        simp only [Option.some.injEq, Prod.mk.injEq] at h
        obtain ⟨hv, hdb, -⟩ := h
        simp only [computeWith] at hc
        split at hc
        · exact absurd hc (by simp)
        rename_i params db₂ evs₂ hl
        obtain ⟨-, hg, -, -⟩ := computeListWith_ok (ciaOK n) _ db params db₂ evs₂ hl
        split at hc
        · rename_i f hfm₂
          rw [hg.1, hfm] at hfm₂
          exact absurd hfm₂ (by simp)
        · simp only [Option.some.injEq, Prod.mk.injEq] at hc
          obtain ⟨hv₁, hdb₁, -⟩ := hc
          constructor
          · rw [← hv, ← hv₁]
          · rw [← hdb]
            simp only [← hv₁]
            exact lookupA_setA_self _ _ _
  · intro fuel db id w h
    exact computeIfAbsent_cached h
  · intro fuel db id v db' evs d hd h hmem
    obtain ⟨-, -, hf⟩ := resetOK fuel db id v db' evs h
    have := hf d hmem
    rw [hd] at this
    simp at this

/-- C1: `reset(id, newValue)` with a new value deep-value-equal to the
cached one is a no-op — the engine state is returned unchanged and no
formula is invoked; with a different value the cache entry is overwritten
and the loop recomputes-and-recursively-resets exactly the downstream ids
that still have a registered formula, each of which is indeed invoked in
any successful propagation. -/
theorem c1_reset_prunes_or_propagates :
    (∀ (fuel : Nat) (db : DB) (id : String) (v : Value),
      lookupA db.snapshots id = some v →
      reset (fuel + 1) db id v = some (db, [])) ∧
    (∀ (fuel : Nat) (db : DB) (id : String) (v : Value),
      ¬ lookupA db.snapshots id = some v →
      reset (fuel + 1) db id v =
        resetList fuel { db with snapshots := setA db.snapshots id v }
          (registeredDownstreams db id)) ∧
    (∀ (fuel : Nat) (db : DB) (id : String) (v : Value) (db' : DB) (evs : List Ev),
      ¬ lookupA db.snapshots id = some v →
      reset fuel db id v = some (db', evs) →
      ∀ d ∈ registeredDownstreams db id, Ev.invoke d ∈ evs) := by
  refine ⟨fun fuel db id v h => reset_noop h,
          fun fuel db id v h => reset_differ h, ?_⟩
  intro fuel db id v db' evs hne h d hd
  cases fuel with
  | zero => exact absurd h (by simp [reset])
  | succ n =>
      rw [reset_differ hne] at h
      simp only [resetList] at h
      obtain ⟨-, -, -, hinv⟩ :=
        resetListWith_ok (resetOK n) (cmpOK n) _ _ db' evs h
      have hreg : (lookupA db.formulas d).isSome = true := by
        have hd' := hd
        simp only [registeredDownstreams, List.mem_filter] at hd'
        exact hd'.2
      exact hinv d hd hreg

/-- The engine of the C1 witness: one extractor-like formula `b` over
`state`. -/
def c1WDb : DB := defineFormula initialDB "b" ["state"] (fun _ => Value.vint 7)

/-- The engine after `reset('state', 3)` has propagated through `b`. -/
def c1WDb' : DB :=
  { c1WDb with snapshots := [("state", Value.vint 3), ("b", Value.vint 7)] }

theorem c1_witness :
    reset 6 initialDB "state" Value.mnil = some (initialDB, []) ∧
    Ev.invoke "b" ∈ [Ev.invoke "b"] :=
  ⟨c1_reset_prunes_or_propagates.1 5 initialDB "state" Value.mnil rfl,
   c1_reset_prunes_or_propagates.2.2 5 c1WDb "state" (Value.vint 3) c1WDb'
     [Ev.invoke "b"] (by decide) rfl "b" (by decide)⟩

/-- `n` consecutive `read(id)` calls, threading the cache, collecting the
returned values and the concatenated invocation trace. -/
def derefN (fuel : Nat) : Nat → DB → String → Option (List Value × DB × List Ev)
  | 0, db, _ => some ([], db, [])
  | n + 1, db, id =>
      match computeIfAbsent fuel db id with
      | none => none
      | some (v, db', evs) =>
          match derefN fuel n db' id with
          | none => none
          | some (vs, db'', evs') => some (v :: vs, db'', evs ++ evs')

/-- C6: for a formula id never invalidated between calls (and not on an
upstream cycle, as the data model requires), repeated `read(id)` calls all
return the same value — every call after the first hits the cache, changes
nothing and invokes nothing — and the formula's computation function is
invoked at most once across all those calls. -/
theorem c6_memoization :
    ∀ (fuel : Nat) (db : DB) (id : String) (v : Value) (db' : DB) (evs : List Ev),
      deref fuel db id = some (v, db', evs) →
      (∀ u ∈ (lookupA db.upstreams id).getD [], ¬ Reach db.upstreams u id) →
      (∀ n : Nat, derefN fuel (n + 1) db id
          = some (List.replicate (n + 1) v, db', evs)) ∧
      List.count id (invokedIds evs) ≤ 1 := by
  intro fuel db id v db' evs h hacyc
  obtain ⟨-, -, hcache, -, -⟩ := ciaOK fuel db id v db' evs h
  have haux : ∀ m, derefN fuel m db' id = some (List.replicate m v, db', []) := by
    intro m
    induction m with
    | zero => simp [derefN]
    | succ k ih =>
        simp only [derefN, computeIfAbsent_cached hcache, ih]
        simp [List.replicate_succ]
  constructor
  · intro n
    have h' : computeIfAbsent fuel db id = some (v, db', evs) := h
    simp only [derefN, h', haux n]
    simp [List.replicate_succ]
  · cases fuel with
    | zero =>
        simp only [deref, computeIfAbsent] at h
        split at h
        · simp only [Option.some.injEq, Prod.mk.injEq] at h
          obtain ⟨-, -, hevs⟩ := h
          simp [← hevs, invokedIds]
        · exact absurd h (by simp)
    | succ n =>
        simp only [deref, computeIfAbsent] at h
        split at h
        · simp only [Option.some.injEq, Prod.mk.injEq] at h
          obtain ⟨-, -, hevs⟩ := h
          simp [← hevs, invokedIds]
        · rename_i hw
          split at h
          · exact absurd h (by simp)
          rename_i v₁ db₁ evs₁ hc
          simp only [Option.some.injEq, Prod.mk.injEq] at h
          obtain ⟨-, -, hevs⟩ := h
          simp only [computeWith] at hc
          split at hc
          · exact absurd hc (by simp)
          rename_i params db₂ evs₂ hl
          obtain ⟨-, -, -, hreach⟩ :=
            computeListWith_ok (ciaOK n) _ db params db₂ evs₂ hl
          have hid_not : id ∉ invokedIds evs₂ := by
            intro hmem
            obtain ⟨u, hu, hru⟩ := hreach id (mem_invokedIds.mp hmem)
            exact hacyc u hu hru
          have hzero : List.count id (invokedIds evs₂) = 0 :=
            List.count_eq_zero.mpr hid_not
          split at hc
          · rename_i f hfm
            simp only [Option.some.injEq, Prod.mk.injEq] at hc
            obtain ⟨-, -, hevs₁⟩ := hc
            rw [← hevs, ← hevs₁, invokedIds_append, List.count_append, hzero]
            simp [invokedIds]
          · simp only [Option.some.injEq, Prod.mk.injEq] at hc
            obtain ⟨-, -, hevs₁⟩ := hc
            rw [← hevs, ← hevs₁]
            simp [hzero]

/-- The engine after the C4 witness read cached a null for the absent
formula `ghost`. -/
def c4WDbGhost : DB :=
  { initialDB with snapshots := [("state", Value.mnil), ("ghost", Value.vnull)] }

/-- The engine after the C4 witness reset overwrote the root state. -/
def c4WDbReset : DB :=
  { initialDB with snapshots := [("state", Value.vint 3)] }

theorem c4_witness :
    (Value.vnull = Value.vnull ∧
      lookupA c4WDbGhost.snapshots "ghost" = some Value.vnull) ∧
    deref 5 c4Db "b" = some (Value.vint 42, c4Db, []) ∧
    Ev.invoke "ghost" ∉ ([] : List Ev) :=
  ⟨c4_absent_formula_null_and_skip.1 5 initialDB "ghost" Value.vnull
     c4WDbGhost [] rfl rfl rfl,
   c4_absent_formula_null_and_skip.2.1 5 c4Db "b" (Value.vint 42) rfl,
   c4_absent_formula_null_and_skip.2.2 4 initialDB "state" (Value.vint 3)
     c4WDbReset [] "ghost" rfl rfl⟩

/-- The engine of the C6 witness: one formula `b` over `state`. -/
def c6WDb : DB := defineFormula initialDB "b" ["state"] (fun _ => Value.vint 7)

/-- The engine after the first `read('b')` cached the computed value. -/
def c6WDb' : DB :=
  { c6WDb with snapshots := [("state", Value.mnil), ("b", Value.vint 7)] }

theorem c6_witness :
    derefN 5 2 c6WDb "b"
      = some (List.replicate 2 (Value.vint 7), c6WDb', [Ev.invoke "b"]) ∧
    List.count "b" (invokedIds [Ev.invoke "b"]) ≤ 1 :=
  have hacyc : ∀ u ∈ (lookupA c6WDb.upstreams "b").getD [],
      ¬ Reach c6WDb.upstreams u "b" := by
    intro u hu hr
    have hu' : u = "state" := by
      have : (lookupA c6WDb.upstreams "b").getD [] = ["state"] := by decide
      rw [this] at hu
      simpa using hu
    subst hu'
    rcases hr.cases_head with heq | ⟨b, hb, -⟩
    · exact absurd heq (by decide)
    · have hnil : (lookupA c6WDb.upstreams "state").getD [] = ([] : List String) := by
        decide
      rw [hnil] at hb
      exact absurd hb (List.not_mem_nil b)
  ⟨(c6_memoization 5 c6WDb "b" (Value.vint 7) c6WDb' [Ev.invoke "b"] rfl hacyc).1 1,
   (c6_memoization 5 c6WDb "b" (Value.vint 7) c6WDb' [Ev.invoke "b"] rfl hacyc).2⟩

/-- `setK` always produces a map cell. -/
theorem isMapV_setK (a : Value) (k : String) (w : Value) :
    (Value.setK a k w).isMapV = true := by
  cases a <;> first
    | rfl
    | (simp only [Value.setK]; split <;> rfl)

/-- Reading through `setK`: the written key reads back the written value,
any other key reads as before. -/
theorem getK_setK (a : Value) (k k' : String) (w : Value) :
    Value.getK (Value.setK a k w) k' =
      if k = k' then some w else Value.getK a k' := by
  induction a with
  | mcons k₀ v₀ tl ihv ihtl =>
      by_cases h0 : k₀ = k
      · subst h0
        simp only [Value.setK, if_pos rfl, Value.getK]
        by_cases h1 : k₀ = k'
        · simp [h1]
        · simp [h1]
      · simp only [Value.setK, if_neg h0, Value.getK]
        by_cases h1 : k₀ = k'
        · subst h1
          have hkk : ¬ k = k₀ := fun he => h0 he.symm
          simp [hkk]
        · simp [h1, ihtl]
  | vnull => simp [Value.setK, Value.getK]
  | vbool b => simp [Value.setK, Value.getK]
  | vint n => simp [Value.setK, Value.getK]
  | vstr s => simp [Value.setK, Value.getK]
  | lnil => simp [Value.setK, Value.getK]
  | lcons hd tl ih₁ ih₂ => simp [Value.setK, Value.getK]
  | mnil => simp [Value.setK, Value.getK]

/-- Merging a map whose entries avoid key `k` into an accumulator map with
no entry at `k` leaves `k` absent. -/
theorem getK_mergeDeep_absent :
    ∀ (es : List (String × Value)) (acc : Value) (k : String),
      acc.isMapV = true → Value.getK acc k = none → k ∉ es.map Prod.fst →
      Value.getK (Value.mergeDeep acc (Value.mapOf es)) k = none := by
  intro es
  induction es with
  | nil =>
      intro acc k hm hk _
      simp only [Value.mapOf, Value.mergeDeep, hm, if_true]
      exact hk
  | cons p tl ih =>
      obtain ⟨k', v'⟩ := p
      intro acc k hm hk hn
      have hkk' : k' ≠ k := by
        intro he
        subst he
        exact hn (by simp)
      simp only [Value.mapOf, Value.mergeDeep, hm, if_true]
      apply ih
      · cases hgk : Value.getK acc k' <;> simp [isMapV_setK]
      · cases hgk : Value.getK acc k' <;> simp [getK_setK, hkk', hk]
      · intro hmem
        exact hn (by simp [hmem])

/-- C8: for a dispatched action whose reducer returns `{state: newState}`
(a map, as states are), the `do-fx` stage resets the root state, so the
cache entry under `"state"` afterwards holds `newState` — which any
subsequent `read("state")` returns — provided no formula chain loops back
downstream into `"state"` itself; and a reducer whose returned effects
contain no `state` key leaves the engine state entirely unchanged by that
dispatch. -/
theorem c8_state_effect :
    (∀ (fuel : Nat) (reg : Registry) (aid : String) (fn : Value → Value → Value)
        (db : DB) (s₀ s' : Value) (action : Value) (db' : DB) (evs : List Ev)
        (flag : Bool),
      lookupA db.snapshots "state" = some s₀ →
      leadingId action = some aid →
      fn (Value.mapOf [("state", s₀)]) action = Value.mapOf [("state", s')] →
      s'.isMapV = true →
      (∀ d ∈ (lookupA db.downstreams "state").getD [],
        ¬ ReachD db.downstreams d "state") →
      dispatchSync fuel (defineReducer reg aid [] fn) db action
        = some (db', evs, flag) →
      lookupA db'.snapshots "state" = some s') ∧
    (∀ (fuel : Nat) (reg : Registry) (aid : String) (fn : Value → Value → Value)
        (db : DB) (s₀ : Value) (action : Value) (es : List (String × Value))
        (db' : DB) (evs : List Ev) (flag : Bool),
      lookupA db.snapshots "state" = some s₀ →
      leadingId action = some aid →
      fn (Value.mapOf [("state", s₀)]) action = Value.mapOf es →
      "state" ∉ es.map Prod.fst →
      dispatchSync fuel (defineReducer reg aid [] fn) db action
        = some (db', evs, flag) →
      db' = db) := by
  constructor
  · intro fuel reg aid fn db s₀ s' action db' evs flag h0 h1 hfn hm hnb h
    have hcia : computeIfAbsent fuel db "state" = some (s₀, db, []) :=
      computeIfAbsent_cached h0
    have e1 : injectStateBefore fuel (initialContext action) db
        = some (Value.mcons "snapshots" (Value.mcons "state" s₀ Value.mnil)
                 (Value.mcons "effects" Value.mnil
                   (Value.mcons "action" action Value.mnil)), db, []) := by
      simp only [injectStateBefore, hcia]
      rfl
    have e2 : reducerStage aid fn fuel
        (Value.mcons "snapshots" (Value.mcons "state" s₀ Value.mnil)
          (Value.mcons "effects" Value.mnil
            (Value.mcons "action" action Value.mnil))) db
        = some (Value.mcons "snapshots" (Value.mcons "state" s₀ Value.mnil)
                 (Value.mcons "effects" (Value.mcons "state" s' Value.mnil)
                   (Value.mcons "action" action Value.mnil)), db,
                [Ev.reduced aid]) := by
      simp only [reducerStage]
      rw [show (Value.getK
            (Value.mcons "snapshots" (Value.mcons "state" s₀ Value.mnil)
              (Value.mcons "effects" Value.mnil
                (Value.mcons "action" action Value.mnil))) "snapshots").getD
            Value.vnull = Value.mapOf [("state", s₀)] from rfl,
          show (Value.getK
            (Value.mcons "snapshots" (Value.mcons "state" s₀ Value.mnil)
              (Value.mcons "effects" Value.mnil
                (Value.mcons "action" action Value.mnil))) "action").getD
            Value.vnull = action from rfl, hfn]
      rfl
    simp only [dispatchSync, h1, defineReducer, lookupA_setA_self] at h
    rw [show reducerChain aid [] fn
        = [injectStateBefore, reducerStage aid fn, doFxAfter] from rfl] at h
    split at h
    · exact absurd h (by simp)
    rename_i cF dF eF hrun
    simp only [Option.some.injEq, Prod.mk.injEq] at h
    obtain ⟨hdb', -, -⟩ := h
    obtain ⟨c1, d1, ee1, ee2, hs1, hrun2, -⟩ := runChain_cons hrun
    rw [e1] at hs1
    simp only [Option.some.injEq, Prod.mk.injEq] at hs1
    obtain ⟨hc1, hd1, -⟩ := hs1
    subst hc1; subst hd1
    obtain ⟨c2, d2, ee3, ee4, hs2, hrun3, -⟩ := runChain_cons hrun2
    rw [e2] at hs2
    simp only [Option.some.injEq, Prod.mk.injEq] at hs2
    obtain ⟨hc2, hd2, -⟩ := hs2
    subst hc2; subst hd2
    obtain ⟨c3, d3, ee5, ee6, hs3, hrunnil, -⟩ := runChain_cons hrun3
    simp only [runChain, Option.some.injEq, Prod.mk.injEq] at hrunnil
    obtain ⟨-, hd3, -⟩ := hrunnil
    have hgst : Value.getIn
        (Value.mcons "snapshots" (Value.mcons "state" s₀ Value.mnil)
          (Value.mcons "effects" (Value.mcons "state" s' Value.mnil)
            (Value.mcons "action" action Value.mnil)))
        ["effects", "state"] = some s' := rfl
    simp only [doFxAfter, hgst, hm, if_true] at hs3
    rcases hr : reset fuel db "state" s' with _ | ⟨dbR, evsR⟩
    · rw [hr] at hs3
      exact absurd hs3 (by simp)
    · have hfxe : fxEvents
          (Value.mcons "snapshots" (Value.mcons "state" s₀ Value.mnil)
            (Value.mcons "effects" (Value.mcons "state" s' Value.mnil)
              (Value.mcons "action" action Value.mnil))) dbR = some [] := by
        simp only [fxEvents]
        rfl
      simp only [hr, Option.map_some', hfxe, Option.some.injEq,
        Prod.mk.injEq] at hs3
      obtain ⟨-, hd3R, -⟩ := hs3
      have : lookupA dbR.snapshots "state" = some s' := reset_sets_self hr hnb
      rw [← hdb', ← hd3, ← hd3R]
      exact this
  · intro fuel reg aid fn db s₀ action es db' evs flag h0 h1 hfn hnostate h
    have hcia : computeIfAbsent fuel db "state" = some (s₀, db, []) :=
      computeIfAbsent_cached h0
    have e1 : injectStateBefore fuel (initialContext action) db
        = some (Value.mcons "snapshots" (Value.mcons "state" s₀ Value.mnil)
                 (Value.mcons "effects" Value.mnil
                   (Value.mcons "action" action Value.mnil)), db, []) := by
      simp only [injectStateBefore, hcia]
      rfl
    have e2 : reducerStage aid fn fuel
        (Value.mcons "snapshots" (Value.mcons "state" s₀ Value.mnil)
          (Value.mcons "effects" Value.mnil
            (Value.mcons "action" action Value.mnil))) db
        = some (Value.mcons "snapshots" (Value.mcons "state" s₀ Value.mnil)
                 (Value.mcons "effects"
                   (Value.mergeDeep Value.mnil (Value.mapOf es))
                   (Value.mcons "action" action Value.mnil)), db,
                [Ev.reduced aid]) := by
      simp only [reducerStage]
      rw [show (Value.getK
            (Value.mcons "snapshots" (Value.mcons "state" s₀ Value.mnil)
              (Value.mcons "effects" Value.mnil
                (Value.mcons "action" action Value.mnil))) "snapshots").getD
            Value.vnull = Value.mapOf [("state", s₀)] from rfl,
          show (Value.getK
            (Value.mcons "snapshots" (Value.mcons "state" s₀ Value.mnil)
              (Value.mcons "effects" Value.mnil
                (Value.mcons "action" action Value.mnil))) "action").getD
            Value.vnull = action from rfl, hfn]
      rfl
    simp only [dispatchSync, h1, defineReducer, lookupA_setA_self] at h
    rw [show reducerChain aid [] fn
        = [injectStateBefore, reducerStage aid fn, doFxAfter] from rfl] at h
    split at h
    · exact absurd h (by simp)
    rename_i cF dF eF hrun
    simp only [Option.some.injEq, Prod.mk.injEq] at h
    obtain ⟨hdb', -, -⟩ := h
    obtain ⟨c1, d1, ee1, ee2, hs1, hrun2, -⟩ := runChain_cons hrun
    rw [e1] at hs1
    simp only [Option.some.injEq, Prod.mk.injEq] at hs1
    obtain ⟨hc1, hd1, -⟩ := hs1
    subst hc1; subst hd1
    obtain ⟨c2, d2, ee3, ee4, hs2, hrun3, -⟩ := runChain_cons hrun2
    rw [e2] at hs2
    simp only [Option.some.injEq, Prod.mk.injEq] at hs2
    obtain ⟨hc2, hd2, -⟩ := hs2
    subst hc2; subst hd2
    obtain ⟨c3, d3, ee5, ee6, hs3, hrunnil, -⟩ := runChain_cons hrun3
    simp only [runChain, Option.some.injEq, Prod.mk.injEq] at hrunnil
    obtain ⟨-, hd3, -⟩ := hrunnil
    have heff : Value.getK (Value.mergeDeep Value.mnil (Value.mapOf es))
        "state" = none :=
      getK_mergeDeep_absent es Value.mnil "state" rfl rfl hnostate
    have hgst : Value.getIn
        (Value.mcons "snapshots" (Value.mcons "state" s₀ Value.mnil)
          (Value.mcons "effects"
            (Value.mergeDeep Value.mnil (Value.mapOf es))
            (Value.mcons "action" action Value.mnil)))
        ["effects", "state"] = none := by
      simp only [Value.getIn, show Value.getK
          (Value.mcons "snapshots" (Value.mcons "state" s₀ Value.mnil)
            (Value.mcons "effects"
              (Value.mergeDeep Value.mnil (Value.mapOf es))
              (Value.mcons "action" action Value.mnil))) "effects"
          = some (Value.mergeDeep Value.mnil (Value.mapOf es)) from rfl, heff]
    simp only [doFxAfter, hgst] at hs3
    rcases hfx : fxEvents
        (Value.mcons "snapshots" (Value.mcons "state" s₀ Value.mnil)
          (Value.mcons "effects"
            (Value.mergeDeep Value.mnil (Value.mapOf es))
            (Value.mcons "action" action Value.mnil))) db with _ | evs₂
    · rw [hfx] at hs3
      exact absurd hs3 (by simp)
    · simp only [hfx] at hs3
      simp only [Option.some.injEq, Prod.mk.injEq] at hs3
      obtain ⟨-, hd3R, -⟩ := hs3
      rw [← hdb', ← hd3, ← hd3R]

/-- The engine after the C8 witness dispatch replaced the root state. -/
def c8WDb' : DB :=
  { initialDB with snapshots := [("state", Value.mapOf [("x", Value.vint 1)])] }

theorem c8_witness :
    lookupA c8WDb'.snapshots "state" = some (Value.mapOf [("x", Value.vint 1)]) ∧
    initialDB = initialDB :=
  ⟨c8_state_effect.1 9 [] "set"
      (fun _ _ => Value.mapOf [("state", Value.mapOf [("x", Value.vint 1)])])
      initialDB Value.mnil (Value.mapOf [("x", Value.vint 1)])
      (Value.listOf [Value.vstr "set"]) c8WDb'
      [Ev.reduced "set", Ev.resetState (Value.mapOf [("x", Value.vint 1)])] true
      rfl rfl rfl rfl
      (fun d hd => absurd hd (List.not_mem_nil d)) rfl,
   c8_state_effect.2 9 [] "noop" (fun _ _ => Value.mapOf []) initialDB
      Value.mnil (Value.listOf [Value.vstr "noop"]) [] initialDB
      [Ev.reduced "noop"] true rfl rfl rfl (by simp) rfl⟩

end PureFrame
